import Mathlib

/-
Verification of the redpanda per-partition cloud-archival engine.

Shallow embedding of the data model and operations of
`archival::ntp_archiver` (declared in
`src/v/archival/ntp_archiver_service.h`) and of
`config::validate_client_groups_byte_rate_quota` (pinned by
`src/v/config/tests/validator_tests.cc`), together with proofs of the
spec-level properties.  Only headers and tests of the repository are
available, so every operation body is modelled from the specification
and the header documentation; each such definition carries a doc
comment starting with "Modelled from the spec:".
-/

namespace config

/-- Mirrors `config::client_group_quota`: group name, client-id prefix
(field named `clients_pfx` here) and a byte-rate quota. -/
structure client_group_quota where
  group_name : String
  clients_pfx : String
  quota : Int
deriving DecidableEq, Repr

/-- Modelled from the spec: inner loop of
`config::validate_client_groups_byte_rate_quota` (implementation file
absent from src; behaviour pinned by
`test_client_groups_byte_rate_quota_invalid_config`).  For each group it
rejects non-positive quotas, then rejects any group whose client prefix
is a prefix of another (distinct) group's client prefix. -/
def validate_groups_loop (all : List (String × client_group_quota)) :
    List (String × client_group_quota) → Option String
  | [] => none
  | g :: rest =>
    if g.2.quota ≤ 0 then
      some "Quota must be a non zero positive number"
    else if all.any (fun h =>
        (h.1 != g.1) && String.isPrefixOf g.2.clients_pfx h.2.clients_pfx) then
      some "Group client prefix can not be prefix for another group"
    else validate_groups_loop all rest

/-- Modelled from the spec: `config::validate_client_groups_byte_rate_quota`.
The map is embedded as an association list. -/
def validate_client_groups_byte_rate_quota
    (groups : List (String × client_group_quota)) : Option String :=
  validate_groups_loop groups groups

end config

namespace cloud_storage

/-- Mirrors `cloud_storage::partition_manifest::segment_meta` (fields listed
in spec.md section 3; timestamp and naming-scheme fields omitted, they play
no role in the claims): the inclusive offset range `[base_offset,
committed_offset]`, the compaction flag, the payload size and the term the
entry was uploaded in. -/
structure segment_meta where
  base_offset : Int
  committed_offset : Int
  is_compacted : Bool
  size_bytes : Nat
  archiver_term : Int
deriving DecidableEq, Repr

/-- Mirrors `cloud_storage::partition_manifest`: an ordered mapping from
`base_offset` to segment entry (embedded as a list sorted by
`base_offset`) plus the retention lower bound `start_offset`. -/
structure partition_manifest where
  start_offset : Int
  segments : List segment_meta
deriving DecidableEq, Repr

/-- Offset right after the end of a chain of entries that starts at `n`,
minus one: the committed offset of the last entry, or `n - 1` for an
empty list. -/
def list_last_off (n : Int) : List segment_meta → Int
  | [] => n - 1
  | e :: rest => list_last_off (e.committed_offset + 1) rest

/-- `last_offset` of the manifest: the max committed offset covered
(`start_offset - 1` when no entry is present). -/
def partition_manifest.last_offset (m : partition_manifest) : Int :=
  list_last_off m.start_offset m.segments

/-- Insertion into the entry list keeping it ordered by `base_offset`. -/
def insert_by_base (e : segment_meta) : List segment_meta → List segment_meta
  | [] => [e]
  | x :: xs =>
    if e.base_offset < x.base_offset then e :: x :: xs
    else x :: insert_by_base e xs

/-- Modelled from the spec: the `add_segment(entry)` archival state-machine
command (spec.md section 4.3; the STM implementation is absent from src).
Re-adding an entry with an already-present base offset is a no-op if the
entries are identical and an error if they conflict; otherwise the entry is
inserted in base-offset order. -/
def add_segment (m : partition_manifest) (e : segment_meta) :
    Except String partition_manifest :=
  match m.segments.find? (fun x => x.base_offset == e.base_offset) with
  | some x =>
    if x = e then Except.ok m
    else Except.error "conflicting entry for base offset"
  | none => Except.ok { m with segments := insert_by_base e m.segments }

/-- Deterministic replay application of one `add_segment` command (the
error case leaves the manifest unchanged; it cannot occur on a
well-formed command log). -/
def apply_add (m : partition_manifest) (e : segment_meta) : partition_manifest :=
  match add_segment m e with
  | Except.ok m2 => m2
  | Except.error _ => m

/-- Entries form a well-formed contiguous chain starting exactly at
offset `n`: each entry covers a non-empty range and begins right after
its predecessor ends. -/
def wf_chainb : Int → List segment_meta → Bool
  | _, [] => true
  | n, e :: rest =>
    (e.base_offset == n) && decide (e.base_offset ≤ e.committed_offset)
      && wf_chainb (e.committed_offset + 1) rest

/-- Pairwise non-overlap of the offset ranges of the entries. -/
def pairwise_disjointb : List segment_meta → Bool
  | [] => true
  | e :: rest =>
    rest.all (fun x =>
        decide (e.committed_offset < x.base_offset)
          || decide (x.committed_offset < e.base_offset))
      && pairwise_disjointb rest

/-- Every pair of consecutive entries `a`, `b` satisfies
`a.committed_offset + 1 == b.base_offset`. -/
def contiguousb : List segment_meta → Bool
  | [] => true
  | [_] => true
  | a :: b :: rest =>
    (a.committed_offset + 1 == b.base_offset) && contiguousb (b :: rest)

/-- Modelled from the spec: replaying a batch of `add_segment` commands
against a manifest, stopping at the first error (spec.md section 4.3). -/
def replay_batch (m : partition_manifest) :
    List segment_meta → Except String partition_manifest
  | [] => Except.ok m
  | e :: rest =>
    match add_segment m e with
    | Except.ok m2 => replay_batch m2 rest
    | Except.error s => Except.error s

end cloud_storage

namespace archival

open cloud_storage

/-- Modelled from the spec: one observable event of the per-partition
archival workflow (spec.md sections 4.4 and 8, invariant 1).  An
`upload` event is one `upload_next` round that uploads a candidate of
`len + 1` new records with payload size `sz` in archiver term `term`;
`replicated` records whether the corresponding `add_segment` command was
successfully replicated (an unreplicated upload leaves only an orphan
blob and no manifest change).  A `crash` loses all volatile state; on
restart the manifest is rebuilt as the deterministic replay of the
durable command log. -/
inductive archival_event
  | upload (len sz : Nat) (term : Int) (replicated : Bool)
  | crash
deriving DecidableEq, Repr

/-- Durable command log plus the in-memory manifest view. -/
structure stm_state where
  cmd_log : List segment_meta
  manifest : partition_manifest
deriving DecidableEq, Repr

/-- Deterministic replay of the archival STM command log (spec.md
section 3, invariant 5: the manifest is the deterministic replay of the
state machine). -/
def replay (s0 : Int) (cmds : List segment_meta) : partition_manifest :=
  cmds.foldl apply_add { start_offset := s0, segments := [] }

def init_state (s0 : Int) : stm_state :=
  { cmd_log := [], manifest := { start_offset := s0, segments := [] } }

/-- Modelled from the spec: the entry built for the next upload
candidate.  The archival policy puts the candidate exactly at the next
expected offset `manifest.last_offset + 1` (spec.md section 4.1). -/
def next_entry (m : partition_manifest) (len sz : Nat) (term : Int) :
    segment_meta :=
  { base_offset := m.last_offset + 1
    committed_offset := m.last_offset + 1 + (len : Int)
    is_compacted := false
    size_bytes := sz
    archiver_term := term }

def apply_event (s0 : Int) (st : stm_state) :
    archival_event → stm_state
  | .upload len sz term replicated =>
    if replicated then
      let e := next_entry st.manifest len sz term
      { cmd_log := st.cmd_log ++ [e]
        manifest := apply_add st.manifest e }
    else st
  | .crash => { cmd_log := st.cmd_log, manifest := replay s0 st.cmd_log }

def run_archival (s0 : Int) (events : List archival_event) : stm_state :=
  events.foldl (apply_event s0) (init_state s0)

/-- System invariant: the durable command log is a well-formed
contiguous chain starting at `s0` and the in-memory manifest equals its
replay. -/
def stm_inv (s0 : Int) (st : stm_state) : Prop :=
  wf_chainb s0 st.cmd_log = true ∧
    st.manifest = { start_offset := s0, segments := st.cmd_log }

/-- Mirrors `cloud_storage::upload_result` as used by the spec contract
`{ok, failed, cancelled}` (spec.md section 4.4). -/
inductive upload_result
  | success
  | failed
  | cancelled
deriving DecidableEq, Repr

/-- Mirrors `archival::segment_upload_kind` (header line 38). -/
inductive segment_upload_kind
  | compacted
  | non_compacted
deriving DecidableEq, Repr

/-- Mirrors `ntp_archiver::upload_group_result` (header lines 101-107). -/
structure upload_group_result where
  num_succeeded : Nat
  num_failed : Nat
  num_cancelled : Nat
deriving DecidableEq, Repr

/-- Mirrors `ntp_archiver::batch_result` (header lines 109-114). -/
structure batch_result where
  non_compacted_upload_result : upload_group_result
  compacted_upload_result : upload_group_result
deriving DecidableEq, Repr

/-- Modelled from the spec: the counting part of `ntp_archiver::wait_uploads`
(header lines 321-323; body absent from src).  Partitions the terminal results
of the awaited upload tasks of one kind into succeeded/failed/cancelled
counters. -/
def wait_uploads : List upload_result → upload_group_result
  | [] => { num_succeeded := 0, num_failed := 0, num_cancelled := 0 }
  | r :: rest =>
    let g := wait_uploads rest
    match r with
    | upload_result.success => { g with num_succeeded := g.num_succeeded + 1 }
    | upload_result.failed => { g with num_failed := g.num_failed + 1 }
    | upload_result.cancelled => { g with num_cancelled := g.num_cancelled + 1 }

/-- Mirrors the leadership state consulted by
`ntp_archiver::can_update_archival_metadata` (header lines 380-383):
whether the parent replica is leader, its current term, the term
snapshotted at the start of the active phase (`_start_term`, header line
407), and whether the abort source has fired. -/
structure leadership_flags where
  is_leader : Bool
  current_term : Int
  start_term : Int
  abort_requested : Bool
deriving DecidableEq, Repr

/-- Modelled from the spec: `ntp_archiver::can_update_archival_metadata`
(header doc, lines 380-383): "the replica is a leader, the term did not
change and the archiver is not stopping". -/
def can_update_archival_metadata (f : leadership_flags) : Bool :=
  f.is_leader && (f.current_term == f.start_term) && !f.abort_requested

/-- Modelled from the spec: replication of one archival-metadata command
through the partition's consensus protocol (spec.md sections 3 invariant 6
and 4.3).  The command is appended to the replicated log only when
`can_update_archival_metadata` holds; otherwise the log is unchanged and
failure is reported. -/
def replicate_archival_command {α : Type} (f : leadership_flags)
    (log : List α) (c : α) : List α × Bool :=
  if can_update_archival_metadata f then (log ++ [c], true) else (log, false)

/-- One record batch of a local segment: the inclusive offset range it
covers (mirrors the batch headers the policy inspects for the LSO
cutoff, spec.md section 4.1). -/
structure record_batch where
  base_offset : Int
  last_offset : Int
deriving DecidableEq, Repr

/-- A local log segment, as enumerated by the replicated log: the
ordered list of its record batches. -/
structure local_segment where
  batches : List record_batch
deriving DecidableEq, Repr

/-- An upload candidate: the contiguous inclusive offset range
`[base_offset, inclusive_last_offset]` selected for one PUT (mirrors
`archival::upload_candidate`; byte ranges and locks are not needed by
the claims). -/
structure upload_candidate where
  base_offset : Int
  inclusive_last_offset : Int
deriving DecidableEq, Repr

/-- Modelled from the spec: the batches of one segment selected for
upload (spec.md section 4.1): those starting at or after the desired
offset (prefix cut), truncated to the last fully committed batch at or
below the LSO. -/
def lso_batches (seg : local_segment) (start_off lso : Int) :
    List record_batch :=
  (seg.batches.filter
      (fun b => decide (start_off ≤ b.base_offset))).takeWhile
    (fun b => decide (b.last_offset ≤ lso))

/-- Modelled from the spec: the per-segment part of the archival policy
(spec.md section 4.1).  An empty selection means no candidate; otherwise
the candidate covers the selected batches. -/
def candidate_for_segment (seg : local_segment) (start_off lso : Int) :
    Option upload_candidate :=
  match (lso_batches seg start_off lso).head?,
      (lso_batches seg start_off lso).getLast? with
  | some hb, some lb =>
    some { base_offset := hb.base_offset
           inclusive_last_offset := lb.last_offset }
  | _, _ => none

/-- Modelled from the spec: `archival_policy` candidate lookup over the
local log: the first segment that yields a candidate wins; `none` means
no data is ready (stop iteration). -/
def get_next_candidate (log : List local_segment) (start_off lso : Int) :
    Option upload_candidate :=
  log.findSome? (fun seg => candidate_for_segment seg start_off lso)

/-- Modelled from the spec: the candidate-selection loop of
`ntp_archiver::upload_next_candidates` (header lines 116-124, 290-309;
bodies absent from src), spec.md section 4.4 step 3: iteratively call
the policy for up to `budget` candidates, advancing the start offset
past each candidate, and stop early on an empty policy result. -/
def schedule_uploads_loop (log : List local_segment) (lso : Int) :
    Int → Nat → List upload_candidate
  | _, 0 => []
  | start_off, budget + 1 =>
    match get_next_candidate log start_off lso with
    | none => []
    | some c =>
      c :: schedule_uploads_loop log lso (c.inclusive_last_offset + 1) budget

/-- Mirrors the configuration consumed by the worker (spec.md section
6); only `upload_concurrency` is needed by the claims. -/
structure archiver_configuration where
  upload_concurrency : Nat
deriving DecidableEq, Repr

/-- Mirrors the `_concurrency{4}` member initializer of `ntp_archiver`
(header line 419): the default `upload_concurrency` is 4. -/
def default_archiver_configuration : archiver_configuration :=
  { upload_concurrency := 4 }

/-- Modelled from the spec: `ntp_archiver::delete_segment` (header doc,
lines 370-376): delete the segment blob; the transaction-metadata blob is
deleted only if the segment deletion was successful.  `delete_ok` is the
remote client's DELETE; the call returns the segment-deletion outcome and
the list of keys whose deletion was issued, in order. -/
def delete_segment (delete_ok : String → Bool) (path : String) :
    Bool × List String :=
  if delete_ok path then (true, [path, path ++ ".tx"])
  else (false, [path])

/-- Modelled from the spec: the manifest entry constructed for one
successful upload, tagged with the current archiver term (spec.md
section 4.4 step 5). -/
def entry_of_candidate (term : Int) (c : upload_candidate) : segment_meta :=
  { base_offset := c.base_offset
    committed_offset := c.inclusive_last_offset
    is_compacted := false
    size_bytes := (c.inclusive_last_offset + 1 - c.base_offset).toNat
    archiver_term := term }

/-- Modelled from the spec: the commit phase of
`ntp_archiver::wait_all_scheduled_uploads` (header lines 311-315; body
absent from src), spec.md section 4.4 step 6: apply the `add_segment`
commands in base-offset order; when replication of a command fails the
remaining entries of the batch are discarded. -/
def commit_add_segments (repl_ok : segment_meta → Bool) :
    partition_manifest → List segment_meta → partition_manifest
  | m, [] => m
  | m, e :: rest =>
    if repl_ok e then
      match add_segment m e with
      | Except.ok m2 => commit_add_segments repl_ok m2 rest
      | Except.error _ => m
    else m

/-- The entries whose `add_segment` command `commit_add_segments`
actually applied, in application order. -/
def applied_adds (repl_ok : segment_meta → Bool) :
    partition_manifest → List segment_meta → List segment_meta
  | _, [] => []
  | m, e :: rest =>
    if repl_ok e then
      match add_segment m e with
      | Except.ok m2 => e :: applied_adds repl_ok m2 rest
      | Except.error _ => []
    else []

/-- The batch of entries produced by one `upload_next` iteration: the
successfully uploaded candidates of the non-compacted context, turned
into manifest entries. -/
def upload_next_entries (log : List local_segment) (eff_lso term : Int)
    (outcome : upload_candidate → upload_result) (budget : Nat)
    (m : partition_manifest) : List segment_meta :=
  ((schedule_uploads_loop log eff_lso (m.last_offset + 1) budget).filter
      (fun c => outcome c == upload_result.success)).map
    (entry_of_candidate term)

/-- Modelled from the spec: `ntp_archiver::upload_next_candidates`
(header lines 116-124; body absent from src), spec.md section 4.4.
Inputs: the local log, the snapshotted LSO and the optional override,
the current archiver term, the terminal result of each PUT (`outcome`),
the replication outcome of each `add_segment` command (`repl_ok`), the
concurrency budget, this iteration's compacted-reupload candidates, and
the manifest.  Returns the updated manifest paired with the
`batch_result`; the function is total, so every invocation returns a
`batch_result` (spec.md section 7: no exceptions cross the per-worker
mutex boundary). -/
def upload_next_candidates (log : List local_segment)
    (lso : Int) (lso_override : Option Int) (term : Int)
    (outcome : upload_candidate → upload_result)
    (repl_ok : segment_meta → Bool) (budget : Nat)
    (compacted_cands : List upload_candidate)
    (m : partition_manifest) : partition_manifest × batch_result :=
  let eff_lso := lso_override.getD lso
  let cands := schedule_uploads_loop log eff_lso (m.last_offset + 1) budget
  let m2 := commit_add_segments repl_ok m
    (upload_next_entries log eff_lso term outcome budget m)
  (m2,
    { non_compacted_upload_result := wait_uploads (cands.map outcome)
      compacted_upload_result := wait_uploads (compacted_cands.map outcome) })

/-- Strictly increasing `base_offset` along a list of entries. -/
def ascending_basesb : List segment_meta → Bool
  | [] => true
  | [_] => true
  | a :: b :: rest =>
    decide (a.base_offset < b.base_offset) && ascending_basesb (b :: rest)

/-- Offset right after the end of a chain of batches starting at `n`,
minus one. -/
def batches_last_off (n : Int) : List record_batch → Int
  | [] => n - 1
  | b :: rest => batches_last_off (b.last_offset + 1) rest

/-- The batches of a segment form a well-formed contiguous chain
starting exactly at offset `n`. -/
def batches_chainb : Int → List record_batch → Bool
  | _, [] => true
  | n, b :: rest =>
    (b.base_offset == n) && decide (b.base_offset ≤ b.last_offset)
      && batches_chainb (b.last_offset + 1) rest

/-- Modelled from the spec: the observable events of the upload loop and
the leadership-transfer hooks (spec.md sections 4.6 and 5; bodies of
`upload_until_term_change` and `prepare_transfer_leadership` absent from
src).  `loop_enter`/`loop_exit` acquire and release the binary activity
semaphore `_uploads_active` (header lines 426-429) around the inner loop
body; `put_start`/`put_complete` delimit one segment PUT, which runs
inside the loop body; `prepare_ok` is `prepare_transfer_leadership`
returning true (it sets `_paused` and has observed the activity
semaphore free within the deadline); `prepare_timeout` is the same call
returning false after the deadline expired (only `_paused` is set);
`complete_transfer` is `complete_transfer_leadership`. -/
inductive loop_event
  | loop_enter
  | put_start
  | put_complete
  | loop_exit
  | prepare_ok
  | prepare_timeout
  | complete_transfer
deriving DecidableEq, Repr

/-- The worker state consulted by the transfer hooks: `_paused` (header
line 424), the `_uploads_active` binary semaphore (held while the inner
loop body runs, header lines 426-429), the number of in-flight PUTs, and
whether a successful `prepare_transfer_leadership` is pending. -/
structure transfer_state where
  paused : Bool
  uploads_active : Bool
  puts_inflight : Nat
  transfer_prepared : Bool
deriving DecidableEq, Repr

def transfer_init : transfer_state :=
  { paused := false, uploads_active := false, puts_inflight := 0,
    transfer_prepared := false }

/-- Modelled from the spec: guard of each event.  The loop body starts
only under `may_begin_uploads` (not paused, header lines 385-388) and
with the activity semaphore free; PUTs run only inside the loop body,
which awaits them all before releasing the semaphore; a successful
prepare has observed the semaphore free. -/
def event_enabled (s : transfer_state) : loop_event → Bool
  | loop_event.loop_enter => !s.uploads_active && !s.paused
  | loop_event.put_start => s.uploads_active
  | loop_event.put_complete => decide (0 < s.puts_inflight)
  | loop_event.loop_exit => s.uploads_active && decide (s.puts_inflight = 0)
  | loop_event.prepare_ok => !s.uploads_active
  | loop_event.prepare_timeout => true
  | loop_event.complete_transfer => true

def event_step (s : transfer_state) : loop_event → transfer_state
  | loop_event.loop_enter => { s with uploads_active := true }
  | loop_event.put_start => { s with puts_inflight := s.puts_inflight + 1 }
  | loop_event.put_complete => { s with puts_inflight := s.puts_inflight - 1 }
  | loop_event.loop_exit => { s with uploads_active := false }
  | loop_event.prepare_ok =>
    { s with paused := true, transfer_prepared := true }
  | loop_event.prepare_timeout => { s with paused := true }
  | loop_event.complete_transfer =>
    { s with paused := false, transfer_prepared := false }

def run_events : transfer_state → List loop_event → transfer_state :=
  List.foldl event_step

/-- A trace is valid when every event is enabled in the state it fires
from. -/
def valid_trace : transfer_state → List loop_event → Bool
  | _, [] => true
  | s, e :: rest => event_enabled s e && valid_trace (event_step s e) rest

/-- Inductive system invariant: PUTs are in flight only while the loop
body holds the activity semaphore, and a pending successful prepare
implies paused, semaphore free and no in-flight PUT. -/
def transfer_inv (s : transfer_state) : Prop :=
  (0 < s.puts_inflight → s.uploads_active = true) ∧
    (s.transfer_prepared = true →
      s.paused = true ∧ s.uploads_active = false ∧ s.puts_inflight = 0)

end archival

namespace config

theorem validate_groups_loop_isSome
    (all : List (String × client_group_quota)) :
    ∀ rest : List (String × client_group_quota),
      (validate_groups_loop all rest).isSome = true ↔
        ∃ g ∈ rest, g.2.quota ≤ 0 ∨
          ∃ h ∈ all, h.1 ≠ g.1 ∧
            String.isPrefixOf g.2.clients_pfx h.2.clients_pfx = true := by
  intro rest
  induction rest with
  | nil => simp [validate_groups_loop]
  | cons g rest ih =>
    by_cases hq : g.2.quota ≤ 0
    · simp only [validate_groups_loop, if_pos hq]
      constructor
      · intro _
        exact ⟨g, List.mem_cons_self g rest, Or.inl hq⟩
      · intro _
        rfl
    · by_cases hp : all.any (fun h =>
          (h.1 != g.1) && String.isPrefixOf g.2.clients_pfx h.2.clients_pfx)
      · simp only [validate_groups_loop, if_neg hq, if_pos hp]
        constructor
        · intro _
          rcases List.any_eq_true.mp hp with ⟨h, hmem, hcond⟩
          rw [Bool.and_eq_true] at hcond
          rcases hcond with ⟨hne, hpref⟩
          exact ⟨g, List.mem_cons_self g rest,
            Or.inr ⟨h, hmem, bne_iff_ne.mp hne, hpref⟩⟩
        · intro _
          rfl
      · simp only [validate_groups_loop, if_neg hq, if_neg hp]
        rw [ih]
        constructor
        · rintro ⟨g', hg', hcase⟩
          exact ⟨g', List.mem_cons_of_mem g hg', hcase⟩
        · rintro ⟨g', hg', hcase⟩
          rcases List.mem_cons.mp hg' with heq | hmem
          · subst heq
            rcases hcase with hle | ⟨h, hmem, hne, hpref⟩
            · exact absurd hle hq
            · refine absurd (List.any_eq_true.mpr ⟨h, hmem, ?_⟩) hp
              rw [Bool.and_eq_true]
              exact ⟨bne_iff_ne.mpr hne, hpref⟩
          · exact ⟨g', hmem, hcase⟩

/-- C10: `validate_client_groups_byte_rate_quota` returns an error iff
some group's quota is non-positive or some group's client prefix is a
prefix of another (distinct) group's client prefix; equivalently it
returns no error exactly when all quotas are strictly positive and the
prefixes are pairwise prefix-free. -/
theorem C10_client_groups_byte_rate_quota_validation
    (groups : List (String × client_group_quota)) :
    (validate_client_groups_byte_rate_quota groups).isSome = true ↔
      (∃ g ∈ groups, g.2.quota ≤ 0) ∨
        ∃ g ∈ groups, ∃ h ∈ groups, g.1 ≠ h.1 ∧
          String.isPrefixOf g.2.clients_pfx h.2.clients_pfx = true := by
  rw [validate_client_groups_byte_rate_quota,
    validate_groups_loop_isSome groups groups]
  constructor
  · rintro ⟨g, hg, hle | ⟨h, hh, hne, hpref⟩⟩
    · exact Or.inl ⟨g, hg, hle⟩
    · exact Or.inr ⟨g, hg, h, hh, Ne.symm hne, hpref⟩
  · rintro (⟨g, hg, hle⟩ | ⟨g, hg, h, hh, hne, hpref⟩)
    · exact ⟨g, hg, Or.inl hle⟩
    · exact ⟨g, hg, Or.inr ⟨h, hh, Ne.symm hne, hpref⟩⟩

end config

namespace cloud_storage

theorem list_last_off_append (l1 l2 : List segment_meta) :
    ∀ n, list_last_off n (l1 ++ l2) = list_last_off (list_last_off n l1 + 1) l2 := by
  induction l1 with
  | nil => intro n; simp [list_last_off]
  | cons e rest ih => intro n; simp [list_last_off, ih]

theorem wf_chainb_bounds {l : List segment_meta} :
    ∀ {n : Int}, wf_chainb n l = true →
      ∀ e ∈ l, n ≤ e.base_offset ∧ e.base_offset ≤ e.committed_offset ∧
        e.committed_offset ≤ list_last_off n l := by
  induction l with
  | nil => intro n _ e he; cases he
  | cons x rest ih =>
    intro n hwf e he
    simp only [wf_chainb, Bool.and_eq_true, beq_iff_eq, decide_eq_true_eq] at hwf
    obtain ⟨⟨hbase, hle⟩, hrest⟩ := hwf
    have hlast : list_last_off n (x :: rest)
        = list_last_off (x.committed_offset + 1) rest := rfl
    rcases List.mem_cons.mp he with rfl | hmem
    · refine ⟨le_of_eq hbase.symm, hle, ?_⟩
      rw [hlast]
      cases rest with
      | nil => simp [list_last_off]
      | cons y ys =>
        have hy := ih hrest y (List.mem_cons_self y ys)
        have h1 : e.committed_offset + 1 ≤ y.base_offset := hy.1
        have h2 := hy.2.1
        have h3 := hy.2.2
        omega
    · have hx := ih hrest e hmem
      rw [hlast]
      refine ⟨?_, hx.2.1, hx.2.2⟩
      have : x.base_offset ≤ x.committed_offset := hle
      omega

theorem wf_chainb_append {l1 l2 : List segment_meta} :
    ∀ {n : Int}, wf_chainb n (l1 ++ l2) = true ↔
      wf_chainb n l1 = true ∧
        wf_chainb (list_last_off n l1 + 1) l2 = true := by
  induction l1 with
  | nil =>
    intro n
    have : n - 1 + 1 = n := by omega
    simp [wf_chainb, list_last_off, this]
  | cons e rest ih =>
    intro n
    simp only [List.cons_append, wf_chainb, Bool.and_eq_true, list_last_off]
    constructor
    · rintro ⟨hhead, htail⟩
      obtain ⟨h1, h2⟩ := ih.mp htail
      exact ⟨⟨hhead, h1⟩, h2⟩
    · rintro ⟨⟨hhead, h1⟩, h2⟩
      exact ⟨hhead, ih.mpr ⟨h1, h2⟩⟩

theorem wf_chainb_pairwise_disjoint {l : List segment_meta} :
    ∀ {n : Int}, wf_chainb n l = true → pairwise_disjointb l = true := by
  induction l with
  | nil => intro n _; rfl
  | cons e rest ih =>
    intro n hwf
    simp only [wf_chainb, Bool.and_eq_true, beq_iff_eq, decide_eq_true_eq] at hwf
    obtain ⟨⟨_, _⟩, hrest⟩ := hwf
    simp only [pairwise_disjointb, Bool.and_eq_true, List.all_eq_true]
    refine ⟨?_, ih hrest⟩
    intro x hx
    have hb := wf_chainb_bounds hrest x hx
    have : e.committed_offset < x.base_offset := by omega
    simp [this]

theorem wf_chainb_contiguous {l : List segment_meta} :
    ∀ {n : Int}, wf_chainb n l = true → contiguousb l = true := by
  induction l with
  | nil => intro n _; rfl
  | cons e rest ih =>
    intro n hwf
    simp only [wf_chainb, Bool.and_eq_true, beq_iff_eq, decide_eq_true_eq] at hwf
    obtain ⟨⟨hbase, hle⟩, hrest⟩ := hwf
    cases rest with
    | nil => rfl
    | cons y ys =>
      have hy : y.base_offset = e.committed_offset + 1 := by
        have := hrest
        simp only [wf_chainb, Bool.and_eq_true, beq_iff_eq, decide_eq_true_eq] at this
        exact this.1.1
      simp only [contiguousb, Bool.and_eq_true, beq_iff_eq]
      exact ⟨hy.symm, ih hrest⟩

theorem wf_chainb_coverage {l : List segment_meta} :
    ∀ {n : Int}, wf_chainb n l = true →
      ∀ o : Int, n ≤ o → o ≤ list_last_off n l →
        ∃ e ∈ l, e.base_offset ≤ o ∧ o ≤ e.committed_offset := by
  induction l with
  | nil =>
    intro n _ o h1 h2
    simp only [list_last_off] at h2
    omega
  | cons e rest ih =>
    intro n hwf o h1 h2
    simp only [wf_chainb, Bool.and_eq_true, beq_iff_eq, decide_eq_true_eq] at hwf
    obtain ⟨⟨hbase, hle⟩, hrest⟩ := hwf
    by_cases ho : o ≤ e.committed_offset
    · exact ⟨e, List.mem_cons_self e rest, by omega, ho⟩
    · have h2' : o ≤ list_last_off (e.committed_offset + 1) rest := h2
      obtain ⟨x, hx, hx1, hx2⟩ := ih hrest o (by omega) h2'
      exact ⟨x, List.mem_cons_of_mem e hx, hx1, hx2⟩

theorem insert_by_base_append {e : segment_meta} :
    ∀ {l : List segment_meta}, (∀ x ∈ l, ¬ e.base_offset < x.base_offset) →
      insert_by_base e l = l ++ [e] := by
  intro l
  induction l with
  | nil => intro _; rfl
  | cons x xs ih =>
    intro h
    have hx : ¬ e.base_offset < x.base_offset := h x (List.mem_cons_self x xs)
    simp only [insert_by_base, if_neg hx, List.cons_append, List.cons.injEq,
      true_and]
    exact ih (fun y hy => h y (List.mem_cons_of_mem x hy))

theorem add_segment_fresh {m : partition_manifest} {e : segment_meta}
    (hfresh : ∀ x ∈ m.segments, x.base_offset < e.base_offset) :
    add_segment m e
      = Except.ok { m with segments := m.segments ++ [e] } := by
  have hfind : m.segments.find? (fun x => x.base_offset == e.base_offset)
      = none := by
    rw [List.find?_eq_none]
    intro x hx
    have := hfresh x hx
    simp only [beq_iff_eq]
    omega
  rw [add_segment, hfind, insert_by_base_append
    (fun x hx => by have := hfresh x hx; omega)]

theorem apply_add_fresh {m : partition_manifest} {e : segment_meta}
    (hfresh : ∀ x ∈ m.segments, x.base_offset < e.base_offset) :
    apply_add m e = { m with segments := m.segments ++ [e] } := by
  rw [apply_add, add_segment_fresh hfresh]

theorem wf_chainb_snoc {n : Int} {l : List segment_meta} {e : segment_meta}
    (hwf : wf_chainb n l = true)
    (hbase : e.base_offset = list_last_off n l + 1)
    (hle : e.base_offset ≤ e.committed_offset) :
    wf_chainb n (l ++ [e]) = true := by
  rw [wf_chainb_append]
  refine ⟨hwf, ?_⟩
  simp only [wf_chainb, Bool.and_eq_true, beq_iff_eq, decide_eq_true_eq]
  exact ⟨⟨hbase, hle⟩, trivial⟩

theorem mem_insert_by_base_self (e : segment_meta) :
    ∀ l : List segment_meta, e ∈ insert_by_base e l := by
  intro l
  induction l with
  | nil => exact List.mem_singleton_self e
  | cons x xs ih =>
    simp only [insert_by_base]
    by_cases h : e.base_offset < x.base_offset
    · rw [if_pos h]
      exact List.mem_cons_self e (x :: xs)
    · rw [if_neg h]
      exact List.mem_cons_of_mem x ih

theorem mem_insert_by_base_of_mem {x e : segment_meta} :
    ∀ {l : List segment_meta}, x ∈ l → x ∈ insert_by_base e l := by
  intro l
  induction l with
  | nil => intro h; cases h
  | cons y ys ih =>
    intro h
    simp only [insert_by_base]
    by_cases hc : e.base_offset < y.base_offset
    · rw [if_pos hc]
      exact List.mem_cons_of_mem e h
    · rw [if_neg hc]
      rcases List.mem_cons.mp h with rfl | hm
      · exact List.mem_cons_self x (insert_by_base e ys)
      · exact List.mem_cons_of_mem y (ih hm)

theorem map_insert_by_base_perm {β : Type} (f : segment_meta → β)
    (e : segment_meta) :
    ∀ l : List segment_meta,
      List.Perm ((insert_by_base e l).map f) (f e :: l.map f) := by
  intro l
  induction l with
  | nil => simp [insert_by_base]
  | cons x xs ih =>
    simp only [insert_by_base]
    by_cases hc : e.base_offset < x.base_offset
    · rw [if_pos hc]
      simp
    · rw [if_neg hc]
      simp only [List.map_cons]
      exact (List.Perm.cons (f x) ih).trans
        (List.Perm.swap (f e) (f x) (xs.map f))

theorem add_segment_ok_mem {m m2 : partition_manifest} {e : segment_meta}
    (h : add_segment m e = Except.ok m2) : e ∈ m2.segments := by
  rw [add_segment] at h
  split at h
  · rename_i x hfind
    split at h
    · rename_i hxe
      cases h
      exact hxe ▸ List.mem_of_find?_eq_some hfind
    · cases h
  · rename_i hfind
    cases h
    exact mem_insert_by_base_self e m.segments

theorem add_segment_ok_superset {m m2 : partition_manifest}
    {e : segment_meta} (h : add_segment m e = Except.ok m2) :
    ∀ x ∈ m.segments, x ∈ m2.segments := by
  rw [add_segment] at h
  split at h
  · rename_i y hfind
    split at h
    · cases h
      exact fun x hx => hx
    · cases h
  · rename_i hfind
    cases h
    exact fun x hx => mem_insert_by_base_of_mem hx

theorem add_segment_ok_nodup {m m2 : partition_manifest} {e : segment_meta}
    (hnd : (m.segments.map segment_meta.base_offset).Nodup)
    (h : add_segment m e = Except.ok m2) :
    (m2.segments.map segment_meta.base_offset).Nodup := by
  rw [add_segment] at h
  split at h
  · rename_i y hfind
    split at h
    · cases h
      exact hnd
    · cases h
  · rename_i hfind
    cases h
    have hperm := map_insert_by_base_perm segment_meta.base_offset e m.segments
    have hnotmem : e.base_offset ∉ m.segments.map segment_meta.base_offset := by
      intro hmem
      obtain ⟨x, hx, hfx⟩ := List.mem_map.mp hmem
      have hnx := List.find?_eq_none.mp hfind x hx
      simp only [beq_iff_eq] at hnx
      exact hnx hfx
    exact (List.Perm.nodup_iff hperm).mpr (List.nodup_cons.mpr ⟨hnotmem, hnd⟩)

theorem add_segment_self_of_mem {m : partition_manifest} {e : segment_meta}
    (hnd : (m.segments.map segment_meta.base_offset).Nodup)
    (hmem : e ∈ m.segments) : add_segment m e = Except.ok m := by
  have hsome : (m.segments.find?
      (fun x => x.base_offset == e.base_offset)).isSome := by
    rw [List.find?_isSome]
    exact ⟨e, hmem, by simp⟩
  obtain ⟨x, hf⟩ := Option.isSome_iff_exists.mp hsome
  have hx : x ∈ m.segments := List.mem_of_find?_eq_some hf
  have hpx := List.find?_some hf
  simp only [beq_iff_eq] at hpx
  have hxe : x = e := List.inj_on_of_nodup_map hnd hx hmem hpx
  rw [add_segment, hf]
  show (if x = e then Except.ok m
    else Except.error "conflicting entry for base offset") = Except.ok m
  rw [if_pos hxe]

theorem add_segment_conflict_error {m : partition_manifest}
    {x e : segment_meta}
    (hnd : (m.segments.map segment_meta.base_offset).Nodup)
    (hx : x ∈ m.segments) (hbase : x.base_offset = e.base_offset)
    (hne : x ≠ e) : ∃ s, add_segment m e = Except.error s := by
  have hsome : (m.segments.find?
      (fun y => y.base_offset == e.base_offset)).isSome := by
    rw [List.find?_isSome]
    exact ⟨x, hx, by simp [hbase]⟩
  obtain ⟨y, hf⟩ := Option.isSome_iff_exists.mp hsome
  have hy : y ∈ m.segments := List.mem_of_find?_eq_some hf
  have hpy := List.find?_some hf
  simp only [beq_iff_eq] at hpy
  have hyx : y = x :=
    List.inj_on_of_nodup_map hnd hy hx (hpy.trans hbase.symm)
  refine ⟨"conflicting entry for base offset", ?_⟩
  rw [add_segment, hf]
  show (if y = e then Except.ok m
      else Except.error "conflicting entry for base offset")
    = Except.error "conflicting entry for base offset"
  rw [hyx, if_neg hne]

theorem replay_batch_no_op {m : partition_manifest}
    (hnd : (m.segments.map segment_meta.base_offset).Nodup) :
    ∀ {es : List segment_meta}, (∀ e ∈ es, e ∈ m.segments) →
      replay_batch m es = Except.ok m := by
  intro es
  induction es with
  | nil => intro _; rfl
  | cons e rest ih =>
    intro hmem
    have hadd := add_segment_self_of_mem hnd
      (hmem e (List.mem_cons_self e rest))
    simp only [replay_batch, hadd]
    exact ih (fun x hx => hmem x (List.mem_cons_of_mem e hx))

end cloud_storage

namespace archival

open cloud_storage

theorem replay_wf_aux (s0 : Int) :
    ∀ (cmds pre : List segment_meta),
      wf_chainb s0 (pre ++ cmds) = true →
      List.foldl apply_add { start_offset := s0, segments := pre } cmds
        = { start_offset := s0, segments := pre ++ cmds } := by
  intro cmds
  induction cmds with
  | nil => intro pre _; simp
  | cons c cs ih =>
    intro pre hwf
    have hsplit := wf_chainb_append.mp hwf
    have hc : c.base_offset = list_last_off s0 pre + 1 := by
      have h2 := hsplit.2
      simp only [wf_chainb, Bool.and_eq_true, beq_iff_eq,
        decide_eq_true_eq] at h2
      exact h2.1.1
    have hfresh : ∀ x ∈ pre, x.base_offset < c.base_offset := by
      intro x hx
      have hb := wf_chainb_bounds hsplit.1 x hx
      omega
    have hfresh' : ∀ x ∈ (partition_manifest.mk s0 pre).segments,
        x.base_offset < c.base_offset := hfresh
    simp only [List.foldl_cons]
    rw [apply_add_fresh hfresh']
    have hassoc : (pre ++ [c]) ++ cs = pre ++ c :: cs := by simp
    have hwf' : wf_chainb s0 ((pre ++ [c]) ++ cs) = true := by
      rw [hassoc]; exact hwf
    have := ih (pre ++ [c]) hwf'
    rw [this, hassoc]

theorem replay_of_wf {s0 : Int} {cmds : List segment_meta}
    (hwf : wf_chainb s0 cmds = true) :
    replay s0 cmds = { start_offset := s0, segments := cmds } :=
  replay_wf_aux s0 cmds [] hwf

theorem stm_inv_apply_event {s0 : Int} {st : stm_state}
    (hinv : stm_inv s0 st) (ev : archival_event) :
    stm_inv s0 (apply_event s0 st ev) := by
  obtain ⟨hwf, hman⟩ := hinv
  cases ev with
  | upload len sz term replicated =>
    cases replicated with
    | false => exact ⟨hwf, hman⟩
    | true =>
      have hlast : st.manifest.last_offset = list_last_off s0 st.cmd_log := by
        rw [hman]; rfl
      have hbase : (next_entry st.manifest len sz term).base_offset
          = list_last_off s0 st.cmd_log + 1 := by
        simp [next_entry, hlast]
      have hle : (next_entry st.manifest len sz term).base_offset
          ≤ (next_entry st.manifest len sz term).committed_offset := by
        simp only [next_entry]
        omega
      have hfresh : ∀ x ∈ st.manifest.segments,
          x.base_offset < (next_entry st.manifest len sz term).base_offset := by
        intro x hx
        rw [hman] at hx
        have hb := wf_chainb_bounds hwf x hx
        rw [hbase]
        omega
      refine ⟨?_, ?_⟩
      · exact wf_chainb_snoc hwf hbase hle
      · show apply_add st.manifest (next_entry st.manifest len sz term)
          = { start_offset := s0,
              segments := st.cmd_log ++ [next_entry st.manifest len sz term] }
        rw [apply_add_fresh hfresh, hman]
  | crash => exact ⟨hwf, replay_of_wf hwf⟩

theorem stm_inv_run (s0 : Int) (events : List archival_event) :
    stm_inv s0 (run_archival s0 events) := by
  have h : ∀ (evs : List archival_event) (st : stm_state), stm_inv s0 st →
      stm_inv s0 (evs.foldl (apply_event s0) st) := by
    intro evs
    induction evs with
    | nil => intro st hst; exact hst
    | cons e es ih => intro st hst; exact ih _ (stm_inv_apply_event hst e)
  exact h events (init_state s0) ⟨rfl, rfl⟩

/-- C1: for every sequence of uploads and crashes, the manifest entries
remain pairwise non-overlapping, and when no entry has
`is_compacted = true` they are contiguous across
`[start_offset, last_offset]`: consecutive entries `a < b` satisfy
`a.committed_offset + 1 == b.base_offset`, and every offset of the
window is covered by some entry. -/
theorem C1_upload_crash_manifest_invariant (s0 : Int)
    (events : List archival_event) :
    pairwise_disjointb (run_archival s0 events).manifest.segments = true ∧
      ((∀ e ∈ (run_archival s0 events).manifest.segments,
          e.is_compacted = false) →
        contiguousb (run_archival s0 events).manifest.segments = true ∧
          ∀ o : Int, (run_archival s0 events).manifest.start_offset ≤ o →
            o ≤ (run_archival s0 events).manifest.last_offset →
            ∃ e ∈ (run_archival s0 events).manifest.segments,
              e.base_offset ≤ o ∧ o ≤ e.committed_offset) := by
  obtain ⟨hwf, hman⟩ := stm_inv_run s0 events
  have hsegs : (run_archival s0 events).manifest.segments
      = (run_archival s0 events).cmd_log := by rw [hman]
  have hwf' : wf_chainb s0 (run_archival s0 events).manifest.segments = true := by
    rw [hsegs]; exact hwf
  refine ⟨wf_chainb_pairwise_disjoint hwf', fun _ => ⟨wf_chainb_contiguous hwf', ?_⟩⟩
  intro o h1 h2
  have hstart : (run_archival s0 events).manifest.start_offset = s0 := by
    rw [hman]
  have hlastoff : (run_archival s0 events).manifest.last_offset
      = list_last_off s0 (run_archival s0 events).manifest.segments := by
    rw [hman]; rfl
  refine wf_chainb_coverage hwf' o ?_ ?_
  · rw [hstart] at h1; exact h1
  · rw [hlastoff] at h2; exact h2

/-- Closed instance of C1: a concrete run with a crash in the middle and
a failed replication. -/
theorem C1_upload_crash_manifest_invariant_witness :
    pairwise_disjointb (run_archival 0
        [archival_event.upload 4 100 1 true, archival_event.crash,
          archival_event.upload 0 7 2 false,
          archival_event.upload 2 9 2 true]).manifest.segments = true ∧
      contiguousb (run_archival 0
        [archival_event.upload 4 100 1 true, archival_event.crash,
          archival_event.upload 0 7 2 false,
          archival_event.upload 2 9 2 true]).manifest.segments = true := by
  have h := C1_upload_crash_manifest_invariant 0
    [archival_event.upload 4 100 1 true, archival_event.crash,
      archival_event.upload 0 7 2 false,
      archival_event.upload 2 9 2 true]
  exact ⟨h.1, (h.2 (by decide)).1⟩

theorem wait_uploads_partitions (os : List upload_result) :
    (wait_uploads os).num_succeeded + (wait_uploads os).num_failed
        + (wait_uploads os).num_cancelled = os.length := by
  induction os with
  | nil => rfl
  | cons r rest ih =>
    cases r <;> simp [wait_uploads, List.length_cons] <;> omega

/-- C3: an archival-metadata command is appended iff the worker is the
current leader, its term equals the term snapshotted at the start of its
active phase, and it is not stopping; when any condition fails, the
replicated log is unchanged. -/
theorem C3_only_leader_in_start_term_appends {α : Type}
    (f : leadership_flags) (log : List α) (c : α) :
    ((replicate_archival_command f log c).1 ≠ log →
        f.is_leader = true ∧ f.current_term = f.start_term ∧
          f.abort_requested = false) ∧
      (¬ (f.is_leader = true ∧ f.current_term = f.start_term ∧
          f.abort_requested = false) →
        (replicate_archival_command f log c).1 = log ∧
          (replicate_archival_command f log c).2 = false) := by
  by_cases hg : can_update_archival_metadata f = true
  · have hcond : f.is_leader = true ∧ f.current_term = f.start_term ∧
        f.abort_requested = false := by
      simp only [can_update_archival_metadata, Bool.and_eq_true, beq_iff_eq,
        Bool.not_eq_true'] at hg
      exact ⟨hg.1.1, hg.1.2, hg.2⟩
    constructor
    · intro _; exact hcond
    · intro hn; exact absurd hcond hn
  · have hrep : replicate_archival_command f log c = (log, false) := by
      simp only [replicate_archival_command, if_neg hg]
    constructor
    · intro hne
      exact absurd (by rw [hrep]) hne
    · intro _
      rw [hrep]
      exact ⟨rfl, rfl⟩

/-- Closed instance of C3: with leadership and matching term the command
is appended (so the contrapositive hypothesis is dischargeable), and with
a changed term nothing is appended. -/
theorem C3_only_leader_in_start_term_appends_witness :
    ((replicate_archival_command
        { is_leader := false, current_term := 7, start_term := 5,
          abort_requested := false } [(0 : Int)] 1).1 = [(0 : Int)] ∧
      (replicate_archival_command
        { is_leader := false, current_term := 7, start_term := 5,
          abort_requested := false } [(0 : Int)] 1).2 = false) ∧
    ((true : Bool) = true ∧ (5 : Int) = 5 ∧ (false : Bool) = false) := by
  constructor
  · exact (C3_only_leader_in_start_term_appends
      { is_leader := false, current_term := 7, start_term := 5,
        abort_requested := false } [(0 : Int)] 1).2 (by simp)
  · exact (C3_only_leader_in_start_term_appends
      { is_leader := true, current_term := 5, start_term := 5,
        abort_requested := false } [(0 : Int)] 1).1 (by decide)

theorem schedule_uploads_loop_length_le (log : List local_segment)
    (lso : Int) :
    ∀ (budget : Nat) (start_off : Int),
      (schedule_uploads_loop log lso start_off budget).length ≤ budget := by
  intro budget
  induction budget with
  | zero => intro start_off; simp [schedule_uploads_loop]
  | succ n ih =>
    intro start_off
    simp only [schedule_uploads_loop]
    cases hc : get_next_candidate log start_off lso with
    | none => simp
    | some c =>
      simp only [List.length_cons]
      exact Nat.succ_le_succ (ih (c.inclusive_last_offset + 1))

/-- C5: one iteration selects at most `budget` candidates where the
budget is the `upload_concurrency` configuration whose default
(`_concurrency{4}`) is 4, and selection stops as soon as the policy
returns an empty result. -/
theorem C5_concurrency_bounds_candidates (log : List local_segment)
    (lso start_off : Int) (cfg : archiver_configuration) :
    (schedule_uploads_loop log lso start_off cfg.upload_concurrency).length
        ≤ cfg.upload_concurrency ∧
      default_archiver_configuration.upload_concurrency = 4 ∧
      (get_next_candidate log start_off lso = none →
        schedule_uploads_loop log lso start_off cfg.upload_concurrency = []) := by
  refine ⟨schedule_uploads_loop_length_le log lso cfg.upload_concurrency
    start_off, rfl, ?_⟩
  intro hnone
  cases cfg.upload_concurrency with
  | zero => rfl
  | succ n => simp [schedule_uploads_loop, hnone]

/-- Closed instance of C5: the empty log yields no candidate, so
scheduling with the default concurrency selects nothing. -/
theorem C5_concurrency_bounds_candidates_witness :
    (schedule_uploads_loop [] 100 0
        default_archiver_configuration.upload_concurrency).length ≤ 4 ∧
      schedule_uploads_loop [] 100 0
        default_archiver_configuration.upload_concurrency = [] := by
  have h := C5_concurrency_bounds_candidates [] 100 0
    default_archiver_configuration
  exact ⟨h.1, h.2.2 rfl⟩

/-- C9: the transaction-metadata blob of a segment is deleted only when
the deletion of the segment blob succeeded; on failure only the segment
key was attempted and the tx blob is left in place. -/
theorem C9_tx_deleted_only_after_segment
    (delete_ok : String → Bool) (path : String) :
    ((path ++ ".tx") ∈ (delete_segment delete_ok path).2 ↔
        delete_ok path = true) ∧
      (delete_ok path = false →
        (delete_segment delete_ok path).2 = [path]) := by
  by_cases h : delete_ok path = true
  · refine ⟨⟨fun _ => h, fun _ => ?_⟩, fun hf => absurd h (by simp [hf])⟩
    simp [delete_segment, h]
  · have h' : delete_ok path = false := by
      cases hh : delete_ok path
      · rfl
      · exact absurd hh h
    constructor
    · constructor
      · intro hmem
        simp only [delete_segment, h', if_neg] at hmem
        · rcases List.mem_singleton.mp hmem with heq
          exact absurd heq.symm (by
            intro hcontra
            have hlen := congrArg String.length hcontra
            simp only [String.length_append] at hlen
            have h3 : (".tx" : String).length = 3 := rfl
            omega)
      · intro ht; exact absurd ht h
    · intro _
      simp [delete_segment, h']

/-- Closed instance of C9 at a concrete path and failing DELETE. -/
theorem C9_tx_deleted_only_after_segment_witness :
    (delete_segment (fun _ => false) "a/b/seg.log").2 = ["a/b/seg.log"] :=
  (C9_tx_deleted_only_after_segment (fun _ => false) "a/b/seg.log").2 rfl

/-- C2: every invocation of `upload_next_candidates`, with any optional
last-stable-offset override, returns a `batch_result` whose
non-compacted triple `{succeeded, failed, cancelled}` partitions the
scheduled non-compacted uploads and whose compacted triple partitions
the compacted uploads; the function is total (no exception escapes). -/
theorem C2_upload_next_always_returns_batch_result
    (log : List local_segment) (lso : Int) (lso_override : Option Int)
    (term : Int) (outcome : upload_candidate → upload_result)
    (repl_ok : segment_meta → Bool) (budget : Nat)
    (compacted_cands : List upload_candidate) (m : partition_manifest) :
    (upload_next_candidates log lso lso_override term outcome repl_ok
          budget compacted_cands m).2.non_compacted_upload_result.num_succeeded
        + (upload_next_candidates log lso lso_override term outcome repl_ok
          budget compacted_cands m).2.non_compacted_upload_result.num_failed
        + (upload_next_candidates log lso lso_override term outcome repl_ok
          budget compacted_cands m).2.non_compacted_upload_result.num_cancelled
      = (schedule_uploads_loop log (lso_override.getD lso)
          (m.last_offset + 1) budget).length ∧
    (upload_next_candidates log lso lso_override term outcome repl_ok
          budget compacted_cands m).2.compacted_upload_result.num_succeeded
        + (upload_next_candidates log lso lso_override term outcome repl_ok
          budget compacted_cands m).2.compacted_upload_result.num_failed
        + (upload_next_candidates log lso lso_override term outcome repl_ok
          budget compacted_cands m).2.compacted_upload_result.num_cancelled
      = compacted_cands.length := by
  constructor
  · have h := wait_uploads_partitions
      ((schedule_uploads_loop log (lso_override.getD lso)
        (m.last_offset + 1) budget).map outcome)
    simpa [upload_next_candidates] using h
  · have h := wait_uploads_partitions (compacted_cands.map outcome)
    simpa [upload_next_candidates] using h

theorem ascending_basesb_of_prefix :
    ∀ {l' l : List segment_meta}, l' <+: l →
      ascending_basesb l = true → ascending_basesb l' = true := by
  intro l'
  induction l' with
  | nil => intro l _ _; rfl
  | cons a t ih =>
    intro l hpre hasc
    obtain ⟨rest, hrest⟩ := hpre
    cases t with
    | nil => rfl
    | cons b t' =>
      cases l with
      | nil => cases hrest
      | cons x xs =>
        have hx : x = a := by
          have := hrest
          simp only [List.cons_append] at this
          exact (List.cons.injEq .. ▸ this).1.symm
        subst hx
        have hxs : xs = (b :: t') ++ rest := by
          simp only [List.cons_append, List.cons.injEq] at hrest
          exact hrest.2.symm
        subst hxs
        simp only [List.cons_append, ascending_basesb, Bool.and_eq_true] at hasc ⊢
        exact ⟨hasc.1, ih ⟨rest, rfl⟩ hasc.2⟩

theorem applied_adds_prefix_of_batch (repl_ok : segment_meta → Bool) :
    ∀ (entries : List segment_meta) (m : partition_manifest),
      applied_adds repl_ok m entries <+: entries := by
  intro entries
  induction entries with
  | nil => intro m; exact List.nil_prefix
  | cons e rest ih =>
    intro m
    simp only [applied_adds]
    by_cases hr : repl_ok e = true
    · rw [if_pos hr]
      cases hadd : add_segment m e with
      | ok m2 => exact (List.prefix_cons_inj e).mpr (ih m2)
      | error s => exact List.nil_prefix
    · rw [if_neg hr]
      exact List.nil_prefix

theorem applied_adds_repl_ok (repl_ok : segment_meta → Bool) :
    ∀ (entries : List segment_meta) (m : partition_manifest),
      ∀ e ∈ applied_adds repl_ok m entries, repl_ok e = true := by
  intro entries
  induction entries with
  | nil => intro m e he; cases he
  | cons a rest ih =>
    intro m e he
    simp only [applied_adds] at he
    by_cases hr : repl_ok a = true
    · rw [if_pos hr] at he
      cases hadd : add_segment m a with
      | ok m2 =>
        rw [hadd] at he
        rcases List.mem_cons.mp he with rfl | hmem
        · exact hr
        · exact ih m2 e hmem
      | error s => rw [hadd] at he; cases he
    · rw [if_neg hr] at he; cases he

theorem commit_eq_foldl_applied (repl_ok : segment_meta → Bool) :
    ∀ (entries : List segment_meta) (m : partition_manifest),
      commit_add_segments repl_ok m entries
        = List.foldl apply_add m (applied_adds repl_ok m entries) := by
  intro entries
  induction entries with
  | nil => intro m; rfl
  | cons e rest ih =>
    intro m
    simp only [commit_add_segments, applied_adds]
    by_cases hr : repl_ok e = true
    · rw [if_pos hr, if_pos hr]
      cases hadd : add_segment m e with
      | ok m2 =>
        have happ : apply_add m e = m2 := by
          simp [apply_add, hadd]
        simp only [List.foldl_cons, happ]
        exact ih m2
      | error s => rfl
    · rw [if_neg hr, if_neg hr]
      rfl

theorem applied_adds_stops_at_failure (repl_ok : segment_meta → Bool)
    (f : segment_meta) (hf : repl_ok f = false) :
    ∀ (l1 l2 : List segment_meta) (m : partition_manifest),
      applied_adds repl_ok m (l1 ++ f :: l2) <+: l1 := by
  intro l1
  induction l1 with
  | nil =>
    intro l2 m
    simp only [List.nil_append, applied_adds, hf]
    simp
  | cons a t ih =>
    intro l2 m
    simp only [List.cons_append, applied_adds]
    by_cases hr : repl_ok a = true
    · rw [if_pos hr]
      cases hadd : add_segment m a with
      | ok m2 => exact (List.prefix_cons_inj a).mpr (ih l2 m2)
      | error s => exact List.nil_prefix
    · rw [if_neg hr]
      exact List.nil_prefix

/-- C6: within one `upload_next` iteration the `add_segment` commands
actually applied form a prefix of the base-offset-ordered batch (so they
are applied in strictly increasing base-offset order), every applied
command had a successful replication, the committed manifest is exactly
the fold of the applied commands, and once replication of a command
fails the remaining higher-offset entries are discarded: nothing at or
after the failed entry is applied. -/
theorem C6_adds_applied_in_order_until_failure
    (repl_ok : segment_meta → Bool) (m : partition_manifest)
    (entries : List segment_meta) :
    applied_adds repl_ok m entries <+: entries ∧
      (ascending_basesb entries = true →
        ascending_basesb (applied_adds repl_ok m entries) = true) ∧
      (∀ e ∈ applied_adds repl_ok m entries, repl_ok e = true) ∧
      commit_add_segments repl_ok m entries
        = List.foldl apply_add m (applied_adds repl_ok m entries) ∧
      ∀ l1 f l2, entries = l1 ++ f :: l2 → repl_ok f = false →
        applied_adds repl_ok m entries <+: l1 := by
  refine ⟨applied_adds_prefix_of_batch repl_ok entries m,
    fun hasc => ascending_basesb_of_prefix
      (applied_adds_prefix_of_batch repl_ok entries m) hasc,
    applied_adds_repl_ok repl_ok entries m,
    commit_eq_foldl_applied repl_ok entries m, ?_⟩
  intro l1 f l2 hsplit hf
  rw [hsplit]
  exact applied_adds_stops_at_failure repl_ok f hf l1 l2 m

/-- Closed instance of C6: three ascending entries with replication
failing on the second; only the first is applied, in order. -/
theorem C6_adds_applied_in_order_until_failure_witness :
    ascending_basesb (applied_adds
        (fun e => decide (e.base_offset ≤ 0))
        (partition_manifest.mk 0 [])
        [segment_meta.mk 0 9 false 10 1, segment_meta.mk 10 19 false 10 1,
          segment_meta.mk 20 29 false 10 1]) = true ∧
      applied_adds (fun e => decide (e.base_offset ≤ 0))
        (partition_manifest.mk 0 [])
        [segment_meta.mk 0 9 false 10 1, segment_meta.mk 10 19 false 10 1,
          segment_meta.mk 20 29 false 10 1] <+:
        [segment_meta.mk 0 9 false 10 1] := by
  have h := C6_adds_applied_in_order_until_failure
    (fun e => decide (e.base_offset ≤ 0))
    (partition_manifest.mk 0 [])
    [segment_meta.mk 0 9 false 10 1, segment_meta.mk 10 19 false 10 1,
      segment_meta.mk 20 29 false 10 1]
  refine ⟨h.2.1 (by decide), ?_⟩
  exact h.2.2.2.2 [segment_meta.mk 0 9 false 10 1]
    (segment_meta.mk 10 19 false 10 1) [segment_meta.mk 20 29 false 10 1]
    rfl (by decide)

theorem commit_mono (repl_ok : segment_meta → Bool) :
    ∀ (entries : List segment_meta) (m : partition_manifest),
      ∀ x ∈ m.segments,
        x ∈ (commit_add_segments repl_ok m entries).segments := by
  intro entries
  induction entries with
  | nil => intro m x hx; exact hx
  | cons e rest ih =>
    intro m x hx
    simp only [commit_add_segments]
    by_cases hr : repl_ok e = true
    · rw [if_pos hr]
      cases hadd : add_segment m e with
      | ok m2 => exact ih m2 x (add_segment_ok_superset hadd x hx)
      | error s => exact hx
    · rw [if_neg hr]
      exact hx

theorem commit_nodup (repl_ok : segment_meta → Bool) :
    ∀ (entries : List segment_meta) (m : partition_manifest),
      (m.segments.map segment_meta.base_offset).Nodup →
      ((commit_add_segments repl_ok m entries).segments.map
        segment_meta.base_offset).Nodup := by
  intro entries
  induction entries with
  | nil => intro m hnd; exact hnd
  | cons e rest ih =>
    intro m hnd
    simp only [commit_add_segments]
    by_cases hr : repl_ok e = true
    · rw [if_pos hr]
      cases hadd : add_segment m e with
      | ok m2 => exact ih m2 (add_segment_ok_nodup hnd hadd)
      | error s => exact hnd
    · rw [if_neg hr]
      exact hnd

theorem applied_mem_commit (repl_ok : segment_meta → Bool) :
    ∀ (entries : List segment_meta) (m : partition_manifest),
      ∀ e ∈ applied_adds repl_ok m entries,
        e ∈ (commit_add_segments repl_ok m entries).segments := by
  intro entries
  induction entries with
  | nil => intro m e he; cases he
  | cons a rest ih =>
    intro m e he
    simp only [applied_adds, commit_add_segments] at he ⊢
    by_cases hr : repl_ok a = true
    · rw [if_pos hr] at he ⊢
      cases hadd : add_segment m a with
      | ok m2 =>
        rw [hadd] at he
        rcases List.mem_cons.mp he with rfl | hmem
        · exact commit_mono repl_ok rest m2 e (add_segment_ok_mem hadd)
        · exact ih m2 e hmem
      | error s =>
        rw [hadd] at he
        cases he
    · rw [if_neg hr] at he
      cases he

/-- C7: re-applying `add_segment(e)` on a manifest that already holds an
entry with the same base offset is a no-op when the entries are
identical and an error when they conflict; consequently replaying the
batch of `add_segment` commands produced by one `upload_next` run
against the resulting manifest leaves it unchanged. -/
theorem C7_add_segment_idempotent_replay
    (m : partition_manifest) (e x : segment_meta)
    (log : List local_segment) (lso : Int) (lso_override : Option Int)
    (term : Int) (outcome : upload_candidate → upload_result)
    (repl_ok : segment_meta → Bool) (budget : Nat)
    (compacted_cands : List upload_candidate)
    (hnd : (m.segments.map segment_meta.base_offset).Nodup) :
    (e ∈ m.segments → add_segment m e = Except.ok m) ∧
      (x ∈ m.segments → x.base_offset = e.base_offset → x ≠ e →
        ∃ s, add_segment m e = Except.error s) ∧
      replay_batch
          (upload_next_candidates log lso lso_override term outcome repl_ok
            budget compacted_cands m).1
          (applied_adds repl_ok m
            (upload_next_entries log (lso_override.getD lso) term outcome
              budget m))
        = Except.ok (upload_next_candidates log lso lso_override term
            outcome repl_ok budget compacted_cands m).1 := by
  refine ⟨fun hmem => add_segment_self_of_mem hnd hmem,
    fun hx hbase hne => add_segment_conflict_error hnd hx hbase hne, ?_⟩
  have hfst : (upload_next_candidates log lso lso_override term outcome
      repl_ok budget compacted_cands m).1
      = commit_add_segments repl_ok m
        (upload_next_entries log (lso_override.getD lso) term outcome
          budget m) := rfl
  rw [hfst]
  exact replay_batch_no_op
    (commit_nodup repl_ok _ m hnd)
    (fun y hy => applied_mem_commit repl_ok _ m y hy)

/-- Closed instance of C7: re-adding the already-present entry is a
no-op and replaying a concrete `upload_next` batch returns the resulting
manifest unchanged. -/
theorem C7_add_segment_idempotent_replay_witness :
    add_segment (partition_manifest.mk 0 [segment_meta.mk 0 9 false 10 1])
        (segment_meta.mk 0 9 false 10 1)
      = Except.ok (partition_manifest.mk 0 [segment_meta.mk 0 9 false 10 1]) ∧
    replay_batch
        (upload_next_candidates [local_segment.mk [record_batch.mk 10 19]]
          19 none 1 (fun _ => upload_result.success) (fun _ => true) 4 []
          (partition_manifest.mk 0 [segment_meta.mk 0 9 false 10 1])).1
        (applied_adds (fun _ => true)
          (partition_manifest.mk 0 [segment_meta.mk 0 9 false 10 1])
          (upload_next_entries [local_segment.mk [record_batch.mk 10 19]]
            ((none : Option Int).getD 19) 1 (fun _ => upload_result.success)
            4 (partition_manifest.mk 0 [segment_meta.mk 0 9 false 10 1])))
      = Except.ok (upload_next_candidates
          [local_segment.mk [record_batch.mk 10 19]] 19 none 1
          (fun _ => upload_result.success) (fun _ => true) 4 []
          (partition_manifest.mk 0 [segment_meta.mk 0 9 false 10 1])).1 := by
  have h := C7_add_segment_idempotent_replay
    (partition_manifest.mk 0 [segment_meta.mk 0 9 false 10 1])
    (segment_meta.mk 0 9 false 10 1) (segment_meta.mk 0 9 false 10 1)
    [local_segment.mk [record_batch.mk 10 19]] 19 none 1
    (fun _ => upload_result.success) (fun _ => true) 4 []
    (by decide)
  exact ⟨h.1 (by decide), h.2.2⟩

theorem batches_chainb_bounds {l : List record_batch} :
    ∀ {n : Int}, batches_chainb n l = true →
      ∀ b ∈ l, n ≤ b.base_offset ∧ b.base_offset ≤ b.last_offset ∧
        b.last_offset ≤ batches_last_off n l := by
  induction l with
  | nil => intro n _ b hb; cases hb
  | cons x rest ih =>
    intro n hc b hb
    simp only [batches_chainb, Bool.and_eq_true, beq_iff_eq,
      decide_eq_true_eq] at hc
    obtain ⟨⟨hbase, hle⟩, hrest⟩ := hc
    have hlast : batches_last_off n (x :: rest)
        = batches_last_off (x.last_offset + 1) rest := rfl
    rcases List.mem_cons.mp hb with rfl | hmem
    · refine ⟨le_of_eq hbase.symm, hle, ?_⟩
      rw [hlast]
      cases rest with
      | nil => simp [batches_last_off]
      | cons y ys =>
        have hy := ih hrest y (List.mem_cons_self y ys)
        have h1 : b.last_offset + 1 ≤ y.base_offset := hy.1
        have h2 := hy.2.1
        have h3 := hy.2.2
        omega
    · have hx := ih hrest b hmem
      rw [hlast]
      refine ⟨?_, hx.2.1, hx.2.2⟩
      have h1 : x.last_offset + 1 ≤ b.base_offset := hx.1
      omega

theorem batches_chainb_append {l1 l2 : List record_batch} :
    ∀ {n : Int}, batches_chainb n (l1 ++ l2) = true ↔
      batches_chainb n l1 = true ∧
        batches_chainb (batches_last_off n l1 + 1) l2 = true := by
  induction l1 with
  | nil =>
    intro n
    have hn : n - 1 + 1 = n := by omega
    simp [batches_chainb, batches_last_off, hn]
  | cons b rest ih =>
    intro n
    simp only [List.cons_append, batches_chainb, Bool.and_eq_true,
      batches_last_off]
    constructor
    · rintro ⟨hhead, htail⟩
      obtain ⟨h1, h2⟩ := ih.mp htail
      exact ⟨⟨hhead, h1⟩, h2⟩
    · rintro ⟨⟨hhead, h1⟩, h2⟩
      exact ⟨hhead, ih.mpr ⟨h1, h2⟩⟩

theorem batches_chain_getLast {l : List record_batch} :
    ∀ {n : Int} {x : record_batch}, batches_chainb n l = true →
      l.getLast? = some x → x.last_offset = batches_last_off n l := by
  induction l with
  | nil => intro n x _ hg; cases hg
  | cons b rest ih =>
    intro n x hc hg
    simp only [batches_chainb, Bool.and_eq_true, beq_iff_eq,
      decide_eq_true_eq] at hc
    obtain ⟨⟨hbase, hle⟩, hrest⟩ := hc
    cases rest with
    | nil =>
      have hx : x = b := by
        simp only [List.getLast?] at hg
        exact (Option.some.injEq .. ▸ hg).symm
      subst hx
      show x.last_offset = batches_last_off (x.last_offset + 1) []
      simp only [batches_last_off]
      omega
    | cons c cs =>
      rw [List.getLast?_cons_cons] at hg
      exact ih hrest hg

theorem batches_chain_mem_takeWhile (lso : Int) {l : List record_batch} :
    ∀ {n : Int}, batches_chainb n l = true →
      ∀ b ∈ l, b.last_offset ≤ lso →
        b ∈ l.takeWhile (fun y => decide (y.last_offset ≤ lso)) := by
  induction l with
  | nil => intro n _ b hb; cases hb
  | cons a rest ih =>
    intro n hc b hb hble
    simp only [batches_chainb, Bool.and_eq_true, beq_iff_eq,
      decide_eq_true_eq] at hc
    obtain ⟨⟨hbase, hle⟩, hrest⟩ := hc
    by_cases hpa : a.last_offset ≤ lso
    · rw [List.takeWhile_cons, if_pos (by simpa using hpa)]
      rcases List.mem_cons.mp hb with rfl | hmem
      · exact List.mem_cons_self b _
      · exact List.mem_cons_of_mem a (ih hrest b hmem hble)
    · exfalso
      rcases List.mem_cons.mp hb with rfl | hmem
      · exact hpa hble
      · have hbd := batches_chainb_bounds hrest b hmem
        have h1 : a.last_offset + 1 ≤ b.base_offset := hbd.1
        have h2 := hbd.2.1
        omega

/-- C8: when a segment's batches cross the last-stable offset, the
policy's candidate starts at the segment's first selected batch and is
truncated so that its committed offset is the end of the last fully
committed batch at or below the LSO: the committed offset is a batch
boundary, is at most the LSO, and dominates every batch boundary at or
below the LSO. -/
theorem C8_lso_cutoff (seg : local_segment) (lso : Int)
    (b0 : record_batch) (rest : List record_batch)
    (hseg : seg.batches = b0 :: rest)
    (hchain : batches_chainb b0.base_offset seg.batches = true)
    (hfirst : b0.last_offset ≤ lso)
    (_hcross : ∃ b ∈ seg.batches, lso < b.last_offset) :
    ∃ c, candidate_for_segment seg b0.base_offset lso = some c ∧
      c.base_offset = b0.base_offset ∧
      c.inclusive_last_offset ≤ lso ∧
      (∃ b ∈ seg.batches, b.last_offset = c.inclusive_last_offset) ∧
      ∀ b ∈ seg.batches, b.last_offset ≤ lso →
        b.last_offset ≤ c.inclusive_last_offset := by
  have hfilter : seg.batches.filter
      (fun b => decide (b0.base_offset ≤ b.base_offset)) = seg.batches := by
    rw [List.filter_eq_self]
    intro b hb
    simp only [decide_eq_true_eq]
    exact (batches_chainb_bounds hchain b hb).1
  have hlb : lso_batches seg b0.base_offset lso
      = seg.batches.takeWhile (fun b => decide (b.last_offset ≤ lso)) := by
    rw [lso_batches, hfilter]
  have htw : seg.batches.takeWhile (fun b => decide (b.last_offset ≤ lso))
      = b0 :: rest.takeWhile (fun b => decide (b.last_offset ≤ lso)) := by
    rw [hseg, List.takeWhile_cons, if_pos (by simpa using hfirst)]
  have hchain_tw : batches_chainb b0.base_offset
      (seg.batches.takeWhile (fun b => decide (b.last_offset ≤ lso)))
        = true := by
    have hsplit := List.takeWhile_append_dropWhile
      (fun b => decide (b.last_offset ≤ lso)) seg.batches
    have hc2 := hchain
    rw [← hsplit] at hc2
    exact (batches_chainb_append.mp hc2).1
  have hne : seg.batches.takeWhile (fun b => decide (b.last_offset ≤ lso))
      ≠ [] := by
    rw [htw]
    exact List.cons_ne_nil b0 _
  obtain ⟨x, hgl⟩ : ∃ x, (seg.batches.takeWhile
      (fun b => decide (b.last_offset ≤ lso))).getLast? = some x :=
    ⟨_, List.getLast?_eq_getLast _ hne⟩
  have hxlast : x.last_offset = batches_last_off b0.base_offset
      (seg.batches.takeWhile (fun b => decide (b.last_offset ≤ lso))) :=
    batches_chain_getLast hchain_tw hgl
  have hxmem_tw : x ∈ seg.batches.takeWhile
      (fun b => decide (b.last_offset ≤ lso)) :=
    List.mem_of_getLast?_eq_some hgl
  have hxlso : x.last_offset ≤ lso := by
    have hmx := List.mem_takeWhile_imp hxmem_tw
    simpa using hmx
  have hhd : (lso_batches seg b0.base_offset lso).head? = some b0 := by
    rw [hlb, htw]
    rfl
  have hgl' : (lso_batches seg b0.base_offset lso).getLast? = some x := by
    rw [hlb]
    exact hgl
  refine ⟨{ base_offset := b0.base_offset, inclusive_last_offset :=
    x.last_offset }, ?_, rfl, hxlso, ?_, ?_⟩
  · simp only [candidate_for_segment]
    rw [hhd, hgl']
  · exact ⟨x, (List.takeWhile_sublist _).subset hxmem_tw, rfl⟩
  · intro b hb hble
    have hbtw : b ∈ seg.batches.takeWhile
        (fun y => decide (y.last_offset ≤ lso)) :=
      batches_chain_mem_takeWhile lso hchain b hb hble
    have hdom := (batches_chainb_bounds hchain_tw b hbtw).2.2
    rw [hxlast]
    exact hdom

/-- Closed instance of C8, the spec's example: segment `[2000..3500]`
with batch boundaries at 2999, 3200 and 3500 and LSO 3200 truncates to
the candidate `[2000..3200]`. -/
theorem C8_lso_cutoff_witness :
    candidate_for_segment
        (local_segment.mk [record_batch.mk 2000 2999,
          record_batch.mk 3000 3200, record_batch.mk 3201 3500]) 2000 3200
      = some (upload_candidate.mk 2000 3200) ∧
    ∃ c, candidate_for_segment
        (local_segment.mk [record_batch.mk 2000 2999,
          record_batch.mk 3000 3200, record_batch.mk 3201 3500]) 2000 3200
        = some c ∧
      c.base_offset = 2000 ∧ c.inclusive_last_offset ≤ 3200 := by
  have h := C8_lso_cutoff
    (local_segment.mk [record_batch.mk 2000 2999,
      record_batch.mk 3000 3200, record_batch.mk 3201 3500]) 3200
    (record_batch.mk 2000 2999)
    [record_batch.mk 3000 3200, record_batch.mk 3201 3500]
    rfl (by decide) (by decide) (by decide)
  obtain ⟨c, hc, hbase, hlso, _, _⟩ := h
  exact ⟨rfl, ⟨c, hc, hbase, hlso⟩⟩

theorem transfer_inv_init : transfer_inv transfer_init := by
  constructor
  · intro h
    exact absurd h (by decide)
  · intro h
    exact absurd h (by decide)

theorem transfer_inv_step {s : transfer_state} (hinv : transfer_inv s)
    (e : loop_event) (hen : event_enabled s e = true) :
    transfer_inv (event_step s e) := by
  obtain ⟨hputs, hprep⟩ := hinv
  cases e with
  | loop_enter =>
    simp only [event_enabled, Bool.and_eq_true, Bool.not_eq_true'] at hen
    refine ⟨fun _ => rfl, fun hp => ?_⟩
    have := hprep hp
    rw [this.1] at hen
    exact absurd hen.2 (by simp)
  | put_start =>
    simp only [event_enabled] at hen
    refine ⟨fun _ => hen, fun hp => ?_⟩
    have := hprep hp
    rw [this.2.1] at hen
    exact absurd hen (by simp)
  | put_complete =>
    simp only [event_enabled, decide_eq_true_eq] at hen
    refine ⟨fun h => hputs (by simp only [event_step] at h; omega),
      fun hp => ?_⟩
    have := hprep hp
    omega
  | loop_exit =>
    simp only [event_enabled, Bool.and_eq_true, decide_eq_true_eq] at hen
    refine ⟨fun h => ?_, fun hp => ?_⟩
    · simp only [event_step] at h
      omega
    · have := hprep hp
      rw [this.2.1] at hen
      exact absurd hen.1 (by simp)
  | prepare_ok =>
    simp only [event_enabled, Bool.not_eq_true'] at hen
    refine ⟨fun h => hputs h, fun _ => ⟨rfl, hen, ?_⟩⟩
    by_cases hz : 0 < s.puts_inflight
    · rw [hputs hz] at hen
      exact absurd hen (by simp)
    · show s.puts_inflight = 0
      omega
  | prepare_timeout =>
    refine ⟨fun h => hputs h, fun hp => ?_⟩
    have := hprep hp
    exact ⟨rfl, this.2.1, this.2.2⟩
  | complete_transfer =>
    refine ⟨fun h => hputs h, fun hp => ?_⟩
    exact absurd hp (by simp [event_step])

theorem transfer_prepared_persists {s : transfer_state}
    (hinv : transfer_inv s) (hp : s.transfer_prepared = true)
    (e : loop_event) (hne : e ≠ loop_event.complete_transfer)
    (hen : event_enabled s e = true) :
    (event_step s e).transfer_prepared = true := by
  obtain ⟨hputs, hprep⟩ := hinv
  obtain ⟨hpaused, hact, hz⟩ := hprep hp
  cases e with
  | loop_enter =>
    simp only [event_enabled, Bool.and_eq_true, Bool.not_eq_true'] at hen
    rw [hpaused] at hen
    exact absurd hen.2 (by simp)
  | put_start =>
    simp only [event_enabled] at hen
    rw [hact] at hen
    exact absurd hen (by simp)
  | put_complete =>
    simp only [event_enabled, decide_eq_true_eq] at hen
    omega
  | loop_exit =>
    simp only [event_enabled, Bool.and_eq_true] at hen
    rw [hact] at hen
    exact absurd hen.1 (by simp)
  | prepare_ok => rfl
  | prepare_timeout => exact hp
  | complete_transfer => exact absurd rfl hne

theorem put_complete_disabled_when_prepared {s : transfer_state}
    (hinv : transfer_inv s) (hp : s.transfer_prepared = true) :
    event_enabled s loop_event.put_complete = false := by
  obtain ⟨_, hprep⟩ := hinv
  obtain ⟨_, _, hz⟩ := hprep hp
  simp [event_enabled, hz]

theorem valid_trace_append (l1 l2 : List loop_event) :
    ∀ s, valid_trace s (l1 ++ l2)
      = (valid_trace s l1 && valid_trace (run_events s l1) l2) := by
  induction l1 with
  | nil => intro s; simp [valid_trace, run_events]
  | cons e rest ih =>
    intro s
    have hrun : run_events s (e :: rest) = run_events (event_step s e) rest :=
      rfl
    simp only [List.cons_append, valid_trace, hrun, Bool.and_assoc]
    congr 1
    exact ih (event_step s e)

theorem transfer_inv_run :
    ∀ (l : List loop_event) (s : transfer_state), transfer_inv s →
      valid_trace s l = true → transfer_inv (run_events s l) := by
  intro l
  induction l with
  | nil => intro s h _; exact h
  | cons e rest ih =>
    intro s h hv
    simp only [valid_trace, Bool.and_eq_true] at hv
    exact ih (event_step s e) (transfer_inv_step h e hv.1) hv.2

theorem no_put_complete_while_prepared :
    ∀ (t : List loop_event) (s : transfer_state), transfer_inv s →
      s.transfer_prepared = true → valid_trace s t = true →
      loop_event.complete_transfer ∉ t → loop_event.put_complete ∉ t := by
  intro t
  induction t with
  | nil => intro s _ _ _ _; exact List.not_mem_nil _
  | cons e rest ih =>
    intro s hinv hp hv hnc
    simp only [valid_trace, Bool.and_eq_true] at hv
    have hne : e ≠ loop_event.complete_transfer :=
      fun h => hnc (h ▸ List.mem_cons_self e rest)
    have hnpc : e ≠ loop_event.put_complete := by
      intro h
      subst h
      rw [put_complete_disabled_when_prepared hinv hp] at hv
      exact absurd hv.1 (by simp)
    intro hmem
    rcases List.mem_cons.mp hmem with rfl | hmem'
    · exact hnpc rfl
    · exact ih (event_step s e) (transfer_inv_step hinv e hv.1)
        (transfer_prepared_persists hinv hp e hne hv.1) hv.2
        (fun h => hnc (List.mem_cons_of_mem e h)) hmem'

/-- C4: along any valid trace from the initial state, once
`prepare_transfer_leadership` has returned true (event `prepare_ok`,
which required `paused := true` and the activity semaphore observed
free), no segment PUT completes until `complete_transfer_leadership` is
called. -/
theorem C4_prepare_transfer_quiesces_puts (t1 t2 : List loop_event)
    (hvalid : valid_trace transfer_init
      (t1 ++ loop_event.prepare_ok :: t2) = true)
    (hnc : loop_event.complete_transfer ∉ t2) :
    loop_event.put_complete ∉ t2 := by
  rw [valid_trace_append] at hvalid
  simp only [Bool.and_eq_true] at hvalid
  obtain ⟨hv1, hv2⟩ := hvalid
  simp only [valid_trace, Bool.and_eq_true] at hv2
  obtain ⟨hen, hv3⟩ := hv2
  have hinv1 : transfer_inv (run_events transfer_init t1) :=
    transfer_inv_run t1 transfer_init transfer_inv_init hv1
  have hinv2 : transfer_inv
      (event_step (run_events transfer_init t1) loop_event.prepare_ok) :=
    transfer_inv_step hinv1 loop_event.prepare_ok hen
  have hp : (event_step (run_events transfer_init t1)
      loop_event.prepare_ok).transfer_prepared = true := rfl
  exact no_put_complete_while_prepared t2 _ hinv2 hp hv3 hnc

/-- Closed instance of C4: a loop round with one PUT quiesces, prepare
succeeds, and a subsequent timeout-style segment sees no PUT
completion. -/
theorem C4_prepare_transfer_quiesces_puts_witness :
    loop_event.put_complete ∉ [loop_event.prepare_timeout] :=
  C4_prepare_transfer_quiesces_puts
    [loop_event.loop_enter, loop_event.put_start, loop_event.put_complete,
      loop_event.loop_exit]
    [loop_event.prepare_timeout] (by decide) (by decide)

end archival

